import Mathlib

/-!
Verification of the sequence-alignment engine of the string-difference-finder
repository: tokenizer, common-affix trimming, Hirschberg LCS, edit-script
construction (`static/js/diff.js`), and the candidate/equivalence-class
LCS variant (`static/js/home.js`).

JavaScript arrays of tokens are modelled as Lean lists; JavaScript `===`
comparison on token strings is modelled by decidable equality.  The
edit-script walk in `diff` is a `while` loop that can fail to make progress
(and hence diverge) on an arbitrary `lcs` argument, so its embedding
returns `Option`: `none` models divergence and is proved unreachable for
the `lcs` values `diff` actually produces.
-/

namespace StringDiff

open scoped List

/-! ## Tokenizer (`splitIntoTokens`, diff.js lines 6-8)

`str.match(/(\w+|\s+|[^\s\w]+)/g)` splits a string into maximal runs of
characters of a single class: word characters (`\w` = ASCII letters, digits,
underscore), whitespace (`\s`), or characters that are neither.  The three
classes partition all characters, so the regex scan is exactly the grouping
of consecutive characters by class. -/

/-- JavaScript `\w`: ASCII letters, digits and underscore. -/
def isWordChar (c : Char) : Bool :=
  c.isAlphanum || c == '_'

/-- JavaScript `\s`: whitespace characters (ASCII and Unicode). -/
def isSpaceChar (c : Char) : Bool :=
  c == ' ' || c == '\t' || c == '\n' || c == '\r' || c == '\x0b' || c == '\x0c' ||
  c.toNat == 0xa0 || c.toNat == 0x1680 ||
  (decide (0x2000 ≤ c.toNat) && decide (c.toNat ≤ 0x200a)) ||
  c.toNat == 0x2028 || c.toNat == 0x2029 || c.toNat == 0x202f ||
  c.toNat == 0x205f || c.toNat == 0x3000 || c.toNat == 0xfeff

/-- The regex alternative matching a character: `0` for `\w`, `1` for `\s`,
`2` for `[^\s\w]`. -/
def charClass (c : Char) : Nat :=
  if isWordChar c then 0 else if isSpaceChar c then 1 else 2

/-- Grouping of a character list into maximal runs of a single class;
this is what the global regex match of `splitIntoTokens` computes. -/
def tokenRuns : List Char → List (List Char)
  | [] => []
  | c :: rest =>
    (c :: rest.takeWhile (fun d => charClass d == charClass c)) ::
      tokenRuns (rest.dropWhile (fun d => charClass d == charClass c))
termination_by l => l.length
decreasing_by
  simp only [List.length_cons]
  exact Nat.lt_succ_of_le (List.dropWhile_sublist _).length_le

/-- `splitIntoTokens` (diff.js line 7): `str.match(/(\w+|\s+|[^\s\w]+)/g) || []`. -/
def splitIntoTokens (s : String) : List String :=
  (tokenRuns s.data).map List.asString

variable {α : Type} [DecidableEq α]

/-! ## Common affix trimming (`commonPrefix`, `commonSuffix`, diff.js 109-127) -/

/-- `commonPrefix` (diff.js 109-114): length of the longest common leading run. -/
def commonPrefix : List α → List α → Nat
  | x :: xs, y :: ys => if x = y then commonPrefix xs ys + 1 else 0
  | _, _ => 0

/-- `commonSuffix` (diff.js 122-127): the loop compares `a[a.length-i-1]`
with `b[b.length-i-1]`, i.e. it computes the common leading run of the
reversed arrays. -/
def commonSuffix (a b : List α) : Nat :=
  commonPrefix a.reverse b.reverse

/-! ## Space-optimized DP rows (`lcsLengths`, diff.js 53-74)

The JS keeps two rows `previous`/`current` of length `n+1`
(`n = b.length`); index `0` of each row is never written and stays `0`.
One outer iteration computes, left to right,
`current[j] = if a[i-1] == b[j-1] then previous[j-1]+1
              else max previous[j] current[j-1]`. -/

/-- Inner loop of `lcsLengths`: walks the remaining suffix of `b`,
carrying `previous[j-1]` (`pprev`), the rest of the previous row from
index `j` on (`prev`), and the just-written `current[j-1]` (`cleft`). -/
def lcsRowGo (x : α) : List α → List Nat → Nat → Nat → List Nat
  | [], _, _, _ => []
  | bj :: bs, prev, pprev, cleft =>
    let pj := prev.headD 0
    let cj := if x = bj then pprev + 1 else max pj cleft
    cj :: lcsRowGo x bs prev.tail pj cj

/-- One outer iteration of `lcsLengths`: from the previous row, produce the
next row (index `0` stays `0`). -/
def lcsNextRow (x : α) (b : List α) (prev : List Nat) : List Nat :=
  0 :: lcsRowGo x b prev.tail (prev.headD 0) 0

/-- `lcsLengths` (diff.js 53-74): the final DP row after consuming all of `a`. -/
def lcsLengths (a b : List α) : List Nat :=
  a.foldl (fun prev x => lcsNextRow x b prev) (List.replicate (b.length + 1) 0)

/-! ## Partition search (`findPartition`, diff.js 89-101) -/

/-- The loop of `findPartition`: scan values with running maximum `mx`
(initially `-1`) and its first index `idx`, updating on strict increase. -/
def findPartitionGo : List Nat → Int → Nat → Nat → Nat
  | [], _, _, idx => idx
  | s :: rest, mx, i, idx =>
    if mx < (s : Int) then findPartitionGo rest (s : Int) (i + 1) i
    else findPartitionGo rest mx (i + 1) idx

/-- `findPartition` (diff.js 89-101): first index maximizing
`l1[i] + l2.reverse[i]`.  Both call sites pass rows of equal length
`b.length + 1`, where `zipWith` agrees with the JS index loop. -/
def findPartition (l1 l2 : List Nat) : Nat :=
  findPartitionGo (List.zipWith (· + ·) l1 l2.reverse) (-1) 0 0

/-! ## Hirschberg LCS (`hirschbergLCS`, diff.js 16-45) -/

/-- `hirschbergLCS` (diff.js 16-45).  Base cases in source order:
`a` empty; `a` a singleton (`b.includes(a[0])`); `b` a singleton
(`a.includes(b[0])`).  Otherwise split `a` at `mid = ⌊|a|/2⌋`, find the
partition of `b` from the two DP rows, and recurse on both halves. -/
def hirschbergLCS : List α → List α → List α
  | [], _ => []
  | [x], b => if x ∈ b then [x] else []
  | x :: y :: rest, [z] => if z ∈ x :: y :: rest then [z] else []
  | x :: y :: rest, b =>
    let a := x :: y :: rest
    let mid := a.length / 2
    let p := findPartition (lcsLengths (a.take mid) b)
      (lcsLengths (a.drop mid).reverse b.reverse)
    hirschbergLCS (a.take mid) (b.take p) ++ hirschbergLCS (a.drop mid) (b.drop p)
termination_by a _ => a.length
decreasing_by
  · simp only [List.length_take, List.length_cons]
    omega
  · simp only [List.length_drop, List.length_cons]
    omega

/-! ## Edit script (`diff`, diff.js 135-189) -/

/-- One operation of the edit script: `{operation: 'equal'|'delete'|'insert', text}`. -/
inductive DiffOp : Type
  | equal (text : String)
  | delete (text : String)
  | insert (text : String)
deriving DecidableEq, Repr

/-- The `text` field of an operation. -/
def DiffOp.text : DiffOp → String
  | .equal t => t
  | .delete t => t
  | .insert t => t

/-- Whether an operation is `'equal'`. -/
def DiffOp.isEqual : DiffOp → Bool
  | .equal _ => true
  | _ => false

/-- Whether an operation is `'delete'`. -/
def DiffOp.isDelete : DiffOp → Bool
  | .delete _ => true
  | _ => false

/-- Whether an operation is `'insert'`. -/
def DiffOp.isInsert : DiffOp → Bool
  | .insert _ => true
  | _ => false

/-- The `while` loop of `diff` (diff.js 161-177), walking `a`, `b` and the
`lcs` array.  Each constructor case mirrors one way the three JS branch
conditions can resolve; `none` models the states in which no branch fires
while tokens remain, where the JS loop spins forever. -/
def diffWalk : List String → List String → List String → Option (List DiffOp)
  | [], [], _ => some []
  | x :: as, [], [] => (diffWalk as [] []).map (DiffOp.delete x :: ·)
  | x :: as, [], l :: ls =>
    if x = l then none
    else (diffWalk as [] (l :: ls)).map (DiffOp.delete x :: ·)
  | [], y :: bs, [] => (diffWalk [] bs []).map (DiffOp.insert y :: ·)
  | [], y :: bs, l :: ls =>
    if y = l then none
    else (diffWalk [] bs (l :: ls)).map (DiffOp.insert y :: ·)
  | x :: as, y :: bs, [] =>
    (diffWalk as bs []).map (fun r => DiffOp.delete x :: DiffOp.insert y :: r)
  | x :: as, y :: bs, l :: ls =>
    if x = l then
      if y = l then (diffWalk as bs ls).map (DiffOp.equal l :: ·)
      else (diffWalk (x :: as) bs (l :: ls)).map (DiffOp.insert y :: ·)
    else
      if y = l then (diffWalk as (y :: bs) (l :: ls)).map (DiffOp.delete x :: ·)
      else (diffWalk as bs (l :: ls)).map (fun r => DiffOp.delete x :: DiffOp.insert y :: r)
termination_by a b _ => a.length + b.length
decreasing_by all_goals simp only [List.length_cons]; omega

/-- `diff` (diff.js 135-189): trim the common affix of the token arrays,
run `hirschbergLCS` on the interior, walk the interior along the LCS, and
wrap the result in the two boundary `equal` segments. -/
def diff (a b : List String) : Option (List DiffOp) :=
  let p := commonPrefix a b
  let pre : List DiffOp :=
    if 0 < p then [DiffOp.equal (String.join (a.take p))] else []
  let a1 := a.drop p
  let b1 := b.drop p
  let s := commonSuffix a1 b1
  let suf : List DiffOp :=
    if 0 < s then [DiffOp.equal (String.join (a1.drop (a1.length - s)))] else []
  let a2 := a1.take (a1.length - s)
  let b2 := b1.take (b1.length - s)
  (diffWalk a2 b2 (hirschbergLCS a2 b2)).map (fun mid => pre ++ mid ++ suf)

/-- Tokens of the `'equal'` and `'delete'` operations, in order: replaying
these reconstructs the first input. -/
def sourceTokens (ops : List DiffOp) : List String :=
  (ops.filter (fun o => o.isEqual || o.isDelete)).map DiffOp.text

/-- Tokens of the `'equal'` and `'insert'` operations, in order: replaying
these reconstructs the second input. -/
def targetTokens (ops : List DiffOp) : List String :=
  (ops.filter (fun o => o.isEqual || o.isInsert)).map DiffOp.text

/-! ## Candidate/equivalence-class LCS (`candidateLCS`, `mergeCandidates`,
home.js 612-648 and 656-685) -/

/-- A candidate pair `{i, j}` of 1-based positions; `{i := 0, j := 0}` is
the initial sentinel. -/
structure Cand : Type where
  i : Nat
  j : Nat
deriving DecidableEq, Repr

/-- `mergeCandidates` (home.js 656-685): merge two `j`-ordered candidate
lists, keeping the new candidate when positions tie. -/
def mergeCandidates : List Cand → List Cand → List Cand
  | [], ns => ns
  | c :: cs, [] => c :: cs
  | c :: cs, n :: ns =>
    if c.j < n.j then c :: mergeCandidates cs (n :: ns)
    else if n.j < c.j then n :: mergeCandidates (c :: cs) ns
    else n :: mergeCandidates cs ns
termination_by cs ns => cs.length + ns.length
decreasing_by all_goals simp only [List.length_cons]; omega

/-- The equivalence class of a value in `b` (home.js 620-626): the ordered
list of 1-based positions of its occurrences. -/
def occList (b : List α) (v : α) : List Nat :=
  (b.enum.filter (fun q => decide (q.2 = v))).map (fun q => q.1 + 1)

/-- The loop of `candidateLCS` (home.js 631-643): at step `i` (1-based
index into `a`) pick the first occurrence position of `a[i-1]` in `b`
strictly beyond `prev[i-1]`, and merge it into the candidate list.  Only
`prev[i-1]` is ever read at step `i`, and it is `0` when step `i-1`
selected nothing, so the `prev` array reduces to one carried value. -/
def candidateLoop (b : List α) : List α → Nat → Nat → List Cand → List Cand
  | [], _, _, cands => cands
  | x :: xs, i, prevSel, cands =>
    match (occList b x).find? (fun j => decide (prevSel < j)) with
    | some j => candidateLoop b xs (i + 1) j (mergeCandidates cands [⟨i, j⟩])
    | none => candidateLoop b xs (i + 1) 0 (mergeCandidates cands [])

/-- `candidateLCS` (home.js 612-648): run the candidate loop from the
sentinel `{0,0}` and shift every kept pair down by one (JS numbers are
modelled as `Int`, since the sentinel maps to `(-1, -1)`). -/
def candidateLCS (a b : List α) : List (Int × Int) :=
  if a.length = 0 ∨ b.length = 0 then []
  else
    (candidateLoop b a 1 0 [⟨0, 0⟩]).map
      (fun c => ((c.i : Int) - 1, (c.j : Int) - 1))

/-! ## Reference LCS length (proof-side specification)

`lcsLen` is the textbook longest-common-subsequence length, used only to
state and prove properties of the code above. -/

/-- Length of a longest common subsequence (textbook recursion). -/
def lcsLen : List α → List α → Nat
  | [], _ => 0
  | _ :: _, [] => 0
  | x :: xs, y :: ys =>
    if x = y then lcsLen xs ys + 1
    else max (lcsLen xs (y :: ys)) (lcsLen (x :: xs) ys)
termination_by a b => a.length + b.length
decreasing_by all_goals simp only [List.length_cons]; omega

/-! ## Tokenizer lemmas -/

/-- Every character of a run grouped behind `c` has the class of `c`. -/
theorem mem_run_class {c d : Char} {rest : List Char}
    (hd : d ∈ c :: rest.takeWhile (fun e => charClass e == charClass c)) :
    charClass d = charClass c := by
  rcases List.mem_cons.1 hd with h | h
  · rw [h]
  · have hall := List.all_takeWhile
      (p := fun e => charClass e == charClass c) (l := rest)
    have := List.all_eq_true.1 hall d h
    exact eq_of_beq this

/-- The runs concatenate back to the input. -/
theorem tokenRuns_flatten : ∀ l : List Char, (tokenRuns l).flatten = l := by
  intro l
  induction l using tokenRuns.induct with
  | case1 => simp [tokenRuns]
  | case2 c rest ih =>
    rw [tokenRuns]
    simp only [List.flatten_cons, ih, List.cons_append,
      List.takeWhile_append_dropWhile]

/-- Every run is nonempty and all its characters share one class. -/
theorem tokenRuns_uniform : ∀ l : List Char, ∀ t ∈ tokenRuns l,
    ∃ c cs, t = c :: cs ∧ ∀ d ∈ t, charClass d = charClass c := by
  intro l
  induction l using tokenRuns.induct with
  | case1 => simp [tokenRuns]
  | case2 c rest ih =>
    intro t ht
    rw [tokenRuns] at ht
    rcases List.mem_cons.1 ht with h | h
    · exact ⟨c, _, h, by intro d hd; rw [h] at hd; exact mem_run_class hd⟩
    · exact ih t h

/-- Adjacent runs have different character classes. -/
theorem tokenRuns_chain : ∀ l : List Char,
    List.Chain' (fun t u => ∀ c ∈ t, ∀ d ∈ u, charClass c ≠ charClass d)
      (tokenRuns l) := by
  intro l
  induction l using tokenRuns.induct with
  | case1 => simp [tokenRuns]
  | case2 c rest ih =>
    rw [tokenRuns]
    refine List.chain'_cons'.2 ⟨?_, ih⟩
    intro u hu e he d hd
    -- `u` is the first run of the remainder after the maximal run of `c`'s class
    set p : Char → Bool := fun e => charClass e == charClass c with hp
    have he' : charClass e = charClass c := mem_run_class he
    rcases hrem : rest.dropWhile p with _ | ⟨r, rs⟩
    · rw [hrem] at hu; simp [tokenRuns] at hu
    · rw [hrem, tokenRuns] at hu
      have hu' : u = r :: rs.takeWhile (fun e => charClass e == charClass r) :=
        (Option.some_inj.1 (by simpa using hu)).symm
      have hdr : charClass d = charClass r := by
        rw [hu'] at hd; exact mem_run_class hd
      have hr : p r = false := by
        have h0 := List.head?_dropWhile_not p rest
        rw [hrem] at h0
        simpa using h0
      simp only [hp, beq_eq_false_iff_ne, ne_eq] at hr
      rw [he', hdr]
      exact fun hcontra => hr hcontra.symm

/-- `String.join` concatenates the underlying character lists. -/
theorem join_data : ∀ (acc : String) (ls : List String),
    (List.foldl (· ++ ·) acc ls).data = acc.data ++ (ls.map String.data).flatten := by
  intro acc ls
  induction ls generalizing acc with
  | nil => simp
  | cons t ts ih =>
    simp only [List.foldl_cons, List.map_cons, List.flatten_cons, ih,
      String.data_append, List.append_assoc]

theorem string_join_data (ls : List String) :
    (String.join ls).data = (ls.map String.data).flatten := by
  have := join_data "" ls
  simpa [String.join] using this

/-- Concatenating all tokens of `splitIntoTokens` restores the input string. -/
theorem splitIntoTokens_join (s : String) :
    String.join (splitIntoTokens s) = s := by
  apply String.ext
  rw [string_join_data]
  simp only [splitIntoTokens, List.map_map]
  have : (String.data ∘ List.asString) = id := by
    funext l; rfl
  rw [this, List.map_id]
  exact tokenRuns_flatten s.data

/-- Structurally recursive twin of `tokenRuns` (accumulating the current
run), used to evaluate the tokenizer on concrete inputs. -/
def tokenRunsGo (cl : Nat) (acc : List Char) : List Char → List (List Char)
  | [] => [acc.reverse]
  | c :: rest =>
    if charClass c == cl then tokenRunsGo cl (c :: acc) rest
    else acc.reverse :: tokenRunsGo (charClass c) [c] rest

theorem tokenRunsGo_spec : ∀ (l : List Char) (cl : Nat) (acc : List Char),
    tokenRunsGo cl acc l
      = (acc.reverse ++ l.takeWhile (fun d => charClass d == cl))
        :: tokenRuns (l.dropWhile (fun d => charClass d == cl)) := by
  intro l
  induction l with
  | nil =>
    intro cl acc
    simp [tokenRunsGo, tokenRuns]
  | cons c rest ih =>
    intro cl acc
    rw [tokenRunsGo]
    by_cases hc : (charClass c == cl) = true
    · rw [if_pos hc, ih cl (c :: acc)]
      simp only [List.takeWhile_cons, List.dropWhile_cons, hc, if_true]
      simp
    · rw [if_neg hc, ih (charClass c) [c]]
      have hc' : (charClass c == cl) = false := by
        simpa using hc
      simp only [List.takeWhile_cons, List.dropWhile_cons, hc', Bool.false_eq_true,
        if_false]
      rw [tokenRuns]
      simp

theorem tokenRuns_eq_go : ∀ l : List Char,
    tokenRuns l = match l with
      | [] => []
      | c :: rest => tokenRunsGo (charClass c) [c] rest := by
  intro l
  cases l with
  | nil => rw [tokenRuns]
  | cons c rest =>
    show tokenRuns (c :: rest) = tokenRunsGo (charClass c) [c] rest
    rw [tokenRunsGo_spec rest (charClass c) [c], tokenRuns]
    simp

/-- Evaluation form of the tokenizer: structural recursion only. -/
theorem splitIntoTokens_eval (s : String) :
    splitIntoTokens s = (match s.data with
      | [] => []
      | c :: rest => tokenRunsGo (charClass c) [c] rest).map List.asString := by
  rw [splitIntoTokens, tokenRuns_eq_go]

/-! ## Common affix lemmas -/

@[simp] theorem commonPrefix_nil_left (b : List α) : commonPrefix [] b = 0 := by
  cases b <;> rfl

@[simp] theorem commonPrefix_nil_right (a : List α) : commonPrefix a [] = 0 := by
  cases a <;> rfl

theorem commonPrefix_le : ∀ (a b : List α),
    commonPrefix a b ≤ min a.length b.length := by
  intro a
  induction a with
  | nil => intro b; cases b <;> simp [commonPrefix]
  | cons x xs ih =>
    intro b
    cases b with
    | nil => simp [commonPrefix]
    | cons y ys =>
      rw [commonPrefix]
      split
      · have := ih ys; simp only [List.length_cons]; omega
      · omega

theorem commonPrefix_take : ∀ (a b : List α),
    a.take (commonPrefix a b) = b.take (commonPrefix a b) := by
  intro a
  induction a with
  | nil => intro b; simp
  | cons x xs ih =>
    intro b
    cases b with
    | nil => simp [commonPrefix]
    | cons y ys =>
      rw [commonPrefix]
      split
      · next h => simp only [List.take_succ_cons, h, ih ys]
      · simp

theorem commonPrefix_greatest : ∀ (a b : List α) (n : Nat),
    n ≤ min a.length b.length → a.take n = b.take n →
    n ≤ commonPrefix a b := by
  intro a
  induction a with
  | nil => intro b n hn _; simp at hn; omega
  | cons x xs ih =>
    intro b n hn ht
    cases b with
    | nil => simp at hn; omega
    | cons y ys =>
      cases n with
      | zero => omega
      | succ m =>
        simp only [List.take_succ_cons, List.cons.injEq] at ht
        rw [commonPrefix, if_pos ht.1]
        have := ih ys m (by simp at hn ⊢; omega) ht.2
        omega

theorem commonSuffix_le (a b : List α) :
    commonSuffix a b ≤ min a.length b.length := by
  have := commonPrefix_le a.reverse b.reverse
  simpa [commonSuffix] using this

theorem commonSuffix_drop (a b : List α) :
    a.drop (a.length - commonSuffix a b) = b.drop (b.length - commonSuffix a b) := by
  have h := commonPrefix_take a.reverse b.reverse
  rw [List.take_reverse, List.take_reverse] at h
  have := List.reverse_inj.1 h
  simpa [commonSuffix] using this

theorem commonSuffix_greatest (a b : List α) (n : Nat)
    (hn : n ≤ min a.length b.length)
    (h : a.drop (a.length - n) = b.drop (b.length - n)) :
    n ≤ commonSuffix a b := by
  apply commonPrefix_greatest a.reverse b.reverse n (by simpa using hn)
  rw [List.take_reverse, List.take_reverse, h]

/-! ## The LCS-length function: characterization -/

@[simp] theorem lcsLen_nil_left (b : List α) : lcsLen [] b = 0 := by
  rw [lcsLen]

@[simp] theorem lcsLen_nil_right (a : List α) : lcsLen a [] = 0 := by
  cases a <;> rw [lcsLen]

/-- Upper bound: every common subsequence is at most `lcsLen` long. -/
theorem length_le_lcsLen : ∀ (a b c : List α), c <+ a → c <+ b →
    c.length ≤ lcsLen a b := by
  intro a b
  induction a, b using lcsLen.induct with
  | case1 b =>
    intro c hca _
    rw [List.sublist_nil.1 hca]
    simp
  | case2 x xs =>
    intro c _ hcb
    rw [List.sublist_nil.1 hcb]
    simp
  | case3 xs y ys ih =>
    intro c hca hcb
    rw [lcsLen, if_pos rfl]
    rcases List.sublist_cons_iff.1 hca with h | ⟨r, rfl, hr⟩
    · rcases List.sublist_cons_iff.1 hcb with h' | ⟨r', rfl, hr'⟩
      · exact Nat.le_succ_of_le (ih c h h')
      · have hr'' : r' <+ xs := ((List.sublist_cons_self y r').trans h)
        simpa using Nat.succ_le_succ (ih r' hr'' hr')
    · rcases List.sublist_cons_iff.1 hcb with h' | ⟨r', hrr, hr'⟩
      · have hrys : r <+ ys := ((List.sublist_cons_self y r).trans h')
        simpa using Nat.succ_le_succ (ih r hr hrys)
      · have hreq : r = r' := by injection hrr
        subst hreq
        simpa using Nat.succ_le_succ (ih r hr hr')
  | case4 x xs y ys hxy ih1 ih2 =>
    intro c hca hcb
    rw [lcsLen, if_neg hxy]
    rcases List.sublist_cons_iff.1 hca with h | ⟨r, rfl, hr⟩
    · exact le_trans (ih1 c h hcb) (Nat.le_max_left _ _)
    · rcases List.sublist_cons_iff.1 hcb with h' | ⟨r', hrr, _⟩
      · exact le_trans (ih2 (x :: r) (List.cons_sublist_cons.2 hr) h')
          (Nat.le_max_right _ _)
      · have h1 : x = y := by injection hrr
        exact absurd h1 hxy

/-- Realizability: a common subsequence of length `lcsLen` exists. -/
theorem exists_lcs : ∀ (a b : List α),
    ∃ c, c <+ a ∧ c <+ b ∧ c.length = lcsLen a b := by
  intro a b
  induction a, b using lcsLen.induct with
  | case1 b => exact ⟨[], List.nil_sublist _, List.nil_sublist _, by simp⟩
  | case2 x xs => exact ⟨[], List.nil_sublist _, List.nil_sublist _, by simp⟩
  | case3 xs y ys ih =>
    obtain ⟨c, h1, h2, h3⟩ := ih
    exact ⟨y :: c, List.cons_sublist_cons.2 h1, List.cons_sublist_cons.2 h2,
      by rw [lcsLen, if_pos rfl]; simpa using h3⟩
  | case4 x xs y ys hxy ih1 ih2 =>
    rcases Nat.le_total (lcsLen (x :: xs) ys) (lcsLen xs (y :: ys)) with h | h
    · obtain ⟨c, h1, h2, h3⟩ := ih1
      refine ⟨c, h1.cons x, h2, ?_⟩
      rw [lcsLen, if_neg hxy, Nat.max_eq_left h, h3]
    · obtain ⟨c, h1, h2, h3⟩ := ih2
      refine ⟨c, h1, h2.cons y, ?_⟩
      rw [lcsLen, if_neg hxy, Nat.max_eq_right h, h3]

theorem lcsLen_comm (a b : List α) : lcsLen a b = lcsLen b a := by
  have h : ∀ u v : List α, lcsLen u v ≤ lcsLen v u := by
    intro u v
    obtain ⟨c, h1, h2, h3⟩ := exists_lcs u v
    rw [← h3]
    exact length_le_lcsLen v u c h2 h1
  exact Nat.le_antisymm (h a b) (h b a)

theorem lcsLen_reverse (a b : List α) :
    lcsLen a.reverse b.reverse = lcsLen a b := by
  have h : ∀ u v : List α, lcsLen u.reverse v.reverse ≤ lcsLen u v := by
    intro u v
    obtain ⟨c, h1, h2, h3⟩ := exists_lcs u.reverse v.reverse
    rw [← h3, ← List.length_reverse c]
    have h1' : c.reverse <+ u := by
      have := List.reverse_sublist.2 h1
      simpa using this
    have h2' : c.reverse <+ v := by
      have := List.reverse_sublist.2 h2
      simpa using this
    exact length_le_lcsLen u v c.reverse h1' h2'
  refine Nat.le_antisymm (h a b) ?_
  have := h a.reverse b.reverse
  simpa using this

theorem lcsLen_singleton_left (x : α) (b : List α) :
    lcsLen [x] b = if x ∈ b then 1 else 0 := by
  induction b with
  | nil => simp
  | cons y ys ih =>
    rw [lcsLen]
    by_cases hxy : x = y
    · subst hxy
      simp
    · rw [if_neg hxy, lcsLen_nil_left, ih]
      simp [List.mem_cons, hxy]

theorem lcsLen_singleton_right (a : List α) (z : α) :
    lcsLen a [z] = if z ∈ a then 1 else 0 := by
  rw [lcsLen_comm, lcsLen_singleton_left]

/-- The DP recurrence on final elements, obtained from the head recurrence
by reversal. -/
theorem lcsLen_concat_concat (A B : List α) (x y : α) :
    lcsLen (A ++ [x]) (B ++ [y]) =
      if x = y then lcsLen A B + 1
      else max (lcsLen A (B ++ [y])) (lcsLen (A ++ [x]) B) := by
  have key : lcsLen (A ++ [x]) (B ++ [y]) = lcsLen (x :: A.reverse) (y :: B.reverse) := by
    rw [← lcsLen_reverse (x :: A.reverse) (y :: B.reverse)]
    simp
  rw [key, lcsLen]
  split
  · rw [lcsLen_reverse]
  · have h1 : lcsLen A.reverse (y :: B.reverse) = lcsLen A (B ++ [y]) := by
      rw [← lcsLen_reverse A (B ++ [y])]
      simp
    have h2 : lcsLen (x :: A.reverse) B.reverse = lcsLen (A ++ [x]) B := by
      rw [← lcsLen_reverse (A ++ [x]) B]
      simp
    rw [h1, h2]

/-! ## The DP rows of `lcsLengths` compute `lcsLen` -/

/-- The tail of the DP row for prefix `A` of `a`: entry `j` (0-based) is
`lcsLen A (C ++ B.take (j+1))`, written recursively to mirror `lcsRowGo`. -/
def rowOf (A C : List α) : List α → List Nat
  | [] => []
  | bj :: bs => lcsLen A (C ++ [bj]) :: rowOf A (C ++ [bj]) bs

theorem rowOf_length (A : List α) : ∀ (B C : List α), (rowOf A C B).length = B.length := by
  intro B
  induction B with
  | nil => intro C; rfl
  | cons bj bs ih => intro C; simp [rowOf, ih]

theorem rowOf_getD (A : List α) : ∀ (B C : List α) (j : Nat), j < B.length →
    (rowOf A C B).getD j 0 = lcsLen A (C ++ B.take (j + 1)) := by
  intro B
  induction B with
  | nil => intro C j hj; simp at hj
  | cons bj bs ih =>
    intro C j hj
    cases j with
    | zero => simp [rowOf]
    | succ m =>
      rw [rowOf, List.getD_cons_succ, ih (C ++ [bj]) m (by simp at hj; omega)]
      simp

/-- The inner loop advances the DP row by one element of `a`. -/
theorem lcsRowGo_rowOf (x : α) : ∀ (B C A : List α),
    lcsRowGo x B (rowOf A C B) (lcsLen A C) (lcsLen (A ++ [x]) C)
      = rowOf (A ++ [x]) C B := by
  intro B
  induction B with
  | nil => intro C A; rfl
  | cons bj bs ih =>
    intro C A
    rw [rowOf, lcsRowGo]
    simp only [List.headD_cons, List.tail_cons]
    rw [← lcsLen_concat_concat A C x bj, rowOf, ih (C ++ [bj]) A]

/-- A full DP row (`n+1` entries, index `0` fixed at `0`). -/
def fullRow (A b : List α) : List Nat :=
  0 :: rowOf A [] b

theorem fullRow_length (A b : List α) : (fullRow A b).length = b.length + 1 := by
  simp [fullRow, rowOf_length]

theorem lcsNextRow_fullRow (x : α) (b A : List α) :
    lcsNextRow x b (fullRow A b) = fullRow (A ++ [x]) b := by
  rw [lcsNextRow, fullRow, fullRow]
  simp only [List.tail_cons, List.headD_cons]
  have h0 : (0 : Nat) = lcsLen A [] := (lcsLen_nil_right A).symm
  have h0' : (0 : Nat) = lcsLen (A ++ [x]) [] := (lcsLen_nil_right (A ++ [x])).symm
  rw [show lcsRowGo x b (rowOf A [] b) 0 0
      = lcsRowGo x b (rowOf A [] b) (lcsLen A []) (lcsLen (A ++ [x]) []) by
    rw [← h0, ← h0']]
  rw [lcsRowGo_rowOf x b [] A]

theorem rowOf_nil_left : ∀ (B C : List α), rowOf [] C B = List.replicate B.length 0 := by
  intro B
  induction B with
  | nil => intro C; rfl
  | cons bj bs ih =>
    intro C
    rw [rowOf, lcsLen_nil_left, ih (C ++ [bj])]
    rfl

theorem lcsLengths_eq_fullRow (a b : List α) : lcsLengths a b = fullRow a b := by
  have init : List.replicate (b.length + 1) 0 = fullRow ([] : List α) b := by
    rw [fullRow, rowOf_nil_left b []]
    rfl
  have main : ∀ (rest A : List α),
      List.foldl (fun prev x => lcsNextRow x b prev) (fullRow A b) rest
        = fullRow (A ++ rest) b := by
    intro rest
    induction rest with
    | nil => intro A; simp
    | cons x xs ih =>
      intro A
      rw [List.foldl_cons, lcsNextRow_fullRow, ih (A ++ [x])]
      simp
  rw [lcsLengths, init]
  simpa using main a []

theorem lcsLengths_length (a b : List α) : (lcsLengths a b).length = b.length + 1 := by
  rw [lcsLengths_eq_fullRow, fullRow_length]

theorem lcsLengths_getD (a b : List α) (j : Nat) (hj : j ≤ b.length) :
    (lcsLengths a b).getD j 0 = lcsLen a (b.take j) := by
  rw [lcsLengths_eq_fullRow, fullRow]
  cases j with
  | zero => simp
  | succ m =>
    rw [List.getD_cons_succ, rowOf_getD a b [] m (by omega)]
    simp

/-! ## `findPartition` returns a first maximum index -/

theorem findPartitionGo_spec : ∀ (l : List Nat) (mx : Int) (i idx : Nat),
    (findPartitionGo l mx i idx = idx ∧
      ∀ k, k < l.length → ((l.getD k 0 : Int) ≤ mx))
    ∨ (∃ k, k < l.length ∧ findPartitionGo l mx i idx = i + k ∧
        mx < (l.getD k 0 : Int) ∧
        ∀ k', k' < l.length →
          ((l.getD k' 0 : Int) ≤ mx ∨ (l.getD k' 0 : Nat) ≤ (l.getD k 0 : Nat))) := by
  intro l
  induction l with
  | nil =>
    intro mx i idx
    left
    exact ⟨rfl, fun k hk => absurd hk (by simp)⟩
  | cons s rest ih =>
    intro mx i idx
    rw [findPartitionGo]
    by_cases hc : mx < (s : Int)
    · rw [if_pos hc]
      rcases ih (s : Int) (i + 1) i with ⟨heq, hall⟩ | ⟨k, hk, heq, hmax, hall⟩
      · right
        refine ⟨0, by simp, by rw [heq]; omega, by simpa using hc, ?_⟩
        intro k' hk'
        cases k' with
        | zero => right; simp
        | succ m =>
          right
          have := hall m (by simpa using hk')
          simp only [List.getD_cons_succ, List.getD_cons_zero]
          omega
      · right
        refine ⟨k + 1, by simpa using hk, by rw [heq]; omega, ?_, ?_⟩
        · simp only [List.getD_cons_succ]
          omega
        · intro k' hk'
          cases k' with
          | zero =>
            right
            simp only [List.getD_cons_succ, List.getD_cons_zero]
            omega
          | succ m =>
            have := hall m (by simpa using hk')
            simp only [List.getD_cons_succ]
            omega
    · rw [if_neg hc]
      rcases ih mx (i + 1) idx with ⟨heq, hall⟩ | ⟨k, hk, heq, hmax, hall⟩
      · left
        refine ⟨heq, ?_⟩
        intro k' hk'
        cases k' with
        | zero => simpa using Int.not_lt.1 hc
        | succ m => simpa using hall m (by simpa using hk')
      · right
        refine ⟨k + 1, by simpa using hk, by rw [heq]; omega, by simpa using hmax, ?_⟩
        intro k' hk'
        cases k' with
        | zero =>
          left
          simpa using Int.not_lt.1 hc
        | succ m =>
          have := hall m (by simpa using hk')
          simp only [List.getD_cons_succ]
          omega

/-- For nonempty sums, `findPartition` is an in-range index attaining the
maximum of `l1[i] + l2.reverse[i]`. -/
theorem findPartition_spec (l1 l2 : List Nat)
    (h : 0 < (List.zipWith (· + ·) l1 l2.reverse).length) :
    findPartition l1 l2 < (List.zipWith (· + ·) l1 l2.reverse).length ∧
    ∀ k, k < (List.zipWith (· + ·) l1 l2.reverse).length →
      (List.zipWith (· + ·) l1 l2.reverse).getD k 0
        ≤ (List.zipWith (· + ·) l1 l2.reverse).getD (findPartition l1 l2) 0 := by
  rcases findPartitionGo_spec (List.zipWith (· + ·) l1 l2.reverse) (-1) 0 0 with
    ⟨_, hall⟩ | ⟨k, hk, heq, _, hall⟩
  · exfalso
    have := hall 0 h
    omega
  · have hfp : findPartition l1 l2 = k := by
      rw [findPartition, heq]
      omega
    rw [hfp]
    refine ⟨hk, ?_⟩
    intro k' hk'
    rcases hall k' hk' with hle | hle
    · omega
    · exact hle

/-- `getD` distributes over `zipWith (+)` inside the common range. -/
theorem zipWith_add_getD (u v : List Nat) (k : Nat)
    (hk : k < (List.zipWith (· + ·) u v).length) :
    (List.zipWith (· + ·) u v).getD k 0 = u.getD k 0 + v.getD k 0 := by
  rw [List.length_zipWith] at hk
  have hu : k < u.length := by omega
  have hv : k < v.length := by omega
  have hz : k < (List.zipWith (· + ·) u v).length := by
    rw [List.length_zipWith]
    omega
  rw [List.getD_eq_getElem?_getD, List.getD_eq_getElem?_getD,
    List.getD_eq_getElem?_getD, List.getElem?_eq_getElem hz,
    List.getElem?_eq_getElem hu, List.getElem?_eq_getElem hv]
  simp [List.getElem_zipWith]

/-- `getD` on a reversed list inside range. -/
theorem getD_reverse (l : List Nat) (k : Nat) (hk : k < l.length) :
    l.reverse.getD k 0 = l.getD (l.length - 1 - k) 0 := by
  simp only [List.getD_eq_getElem?_getD]
  rw [List.getElem?_reverse hk]

/-! ## Correctness of `hirschbergLCS` -/

/-- Unfolding of the recursive arm (reached whenever `a` has at least two
elements and `b` is not a singleton — including `b = []`). -/
theorem hirschbergLCS_rec (x y : α) (rest b : List α) (hb : b.length ≠ 1) :
    hirschbergLCS (x :: y :: rest) b =
      hirschbergLCS ((x :: y :: rest).take ((x :: y :: rest).length / 2))
        (b.take (findPartition
          (lcsLengths ((x :: y :: rest).take ((x :: y :: rest).length / 2)) b)
          (lcsLengths ((x :: y :: rest).drop ((x :: y :: rest).length / 2)).reverse
            b.reverse)))
      ++ hirschbergLCS ((x :: y :: rest).drop ((x :: y :: rest).length / 2))
        (b.drop (findPartition
          (lcsLengths ((x :: y :: rest).take ((x :: y :: rest).length / 2)) b)
          (lcsLengths ((x :: y :: rest).drop ((x :: y :: rest).length / 2)).reverse
            b.reverse))) := by
  cases b with
  | nil =>
    rw [hirschbergLCS]
    intro z h
    simp at h
  | cons z zs =>
    cases zs with
    | nil => simp at hb
    | cons w ws =>
      rw [hirschbergLCS]
      intro u h
      simp at h

/-- Main invariant: `hirschbergLCS a b` is a common subsequence whose
length is exactly the LCS length. -/
theorem hirschbergLCS_spec_aux : ∀ (n : Nat) (a b : List α), a.length = n →
    hirschbergLCS a b <+ a ∧ hirschbergLCS a b <+ b ∧
      (hirschbergLCS a b).length = lcsLen a b := by
  intro n
  induction n using Nat.strong_induction_on with
  | _ n ih =>
    intro a b hlen
    rcases a with _ | ⟨x, as⟩
    · have h0 : hirschbergLCS ([] : List α) b = [] := by rw [hirschbergLCS]
      rw [h0]
      exact ⟨List.nil_sublist _, List.nil_sublist _, by simp⟩
    rcases as with _ | ⟨y, rest⟩
    · have h1 : hirschbergLCS [x] b = if x ∈ b then [x] else [] := by
        rw [hirschbergLCS]
      rw [h1]
      by_cases hx : x ∈ b
      · rw [if_pos hx]
        exact ⟨List.Sublist.refl _, List.singleton_sublist.2 hx,
          by rw [lcsLen_singleton_left, if_pos hx]; rfl⟩
      · rw [if_neg hx]
        exact ⟨List.nil_sublist _, List.nil_sublist _,
          by rw [lcsLen_singleton_left, if_neg hx]; rfl⟩
    by_cases hb : b.length = 1
    · rcases b with _ | ⟨z, zs⟩
      · simp at hb
      rcases zs with _ | ⟨w, ws⟩
      · have h2 : hirschbergLCS (x :: y :: rest) [z]
            = if z ∈ x :: y :: rest then [z] else [] := by
          rw [hirschbergLCS]
        rw [h2]
        by_cases hz : z ∈ x :: y :: rest
        · rw [if_pos hz]
          exact ⟨List.singleton_sublist.2 hz, List.Sublist.refl _,
            by rw [lcsLen_singleton_right, if_pos hz]; rfl⟩
        · rw [if_neg hz]
          exact ⟨List.nil_sublist _, List.nil_sublist _,
            by rw [lcsLen_singleton_right, if_neg hz]; rfl⟩
      · simp at hb
    · rw [hirschbergLCS_rec x y rest b hb]
      set a := x :: y :: rest with ha
      set mid := a.length / 2 with hmid
      set a₁ := a.take mid with ha₁
      set a₂ := a.drop mid with ha₂
      set l1 := lcsLengths a₁ b with hl1
      set l2 := lcsLengths a₂.reverse b.reverse with hl2
      set p := findPartition l1 l2 with hp
      have halen : 2 ≤ a.length := by rw [ha]; simp
      have hmid1 : 1 ≤ mid := by rw [hmid]; omega
      have hmid2 : mid < a.length := by rw [hmid]; omega
      have hlen1 : l1.length = b.length + 1 := lcsLengths_length a₁ b
      have hlen2 : l2.length = b.length + 1 := by
        rw [hl2, lcsLengths_length, List.length_reverse]
      have hsumlen : (List.zipWith (· + ·) l1 l2.reverse).length = b.length + 1 := by
        rw [List.length_zipWith, List.length_reverse, hlen1, hlen2]
        omega
      obtain ⟨hplt, hpmax⟩ := findPartition_spec l1 l2 (by omega)
      rw [← hp] at hplt hpmax
      have hple : p ≤ b.length := by omega
      have hsumval : ∀ q, q ≤ b.length →
          (List.zipWith (· + ·) l1 l2.reverse).getD q 0
            = lcsLen a₁ (b.take q) + lcsLen a₂ (b.drop q) := by
        intro q hq
        rw [zipWith_add_getD l1 l2.reverse q (by omega)]
        rw [hl1, lcsLengths_getD a₁ b q hq]
        have hq2 : q < l2.length := by omega
        rw [getD_reverse l2 q hq2]
        have hidx : l2.length - 1 - q = b.length - q := by omega
        rw [hidx, hl2, lcsLengths_getD a₂.reverse b.reverse (b.length - q)
          (by rw [List.length_reverse]; omega)]
        have htake : b.reverse.take (b.length - q) = (b.drop q).reverse := by
          rw [List.take_reverse]
          have hsub : b.length - (b.length - q) = q := by omega
          rw [hsub]
        rw [htake, lcsLen_reverse]
      have hlen_a1 : a₁.length = mid := by
        rw [ha₁, List.length_take]
        omega
      have hlen_a2 : a₂.length = a.length - mid := by
        rw [ha₂, List.length_drop]
      obtain ⟨hLa, hLb, hLlen⟩ :=
        ih a₁.length (by omega) a₁ (b.take p) rfl
      obtain ⟨hRa, hRb, hRlen⟩ :=
        ih a₂.length (by omega) a₂ (b.drop p) rfl
      have hsub_a : hirschbergLCS a₁ (b.take p) ++ hirschbergLCS a₂ (b.drop p) <+ a := by
        have := List.Sublist.append hLa hRa
        rwa [List.take_append_drop] at this
      have hsub_b : hirschbergLCS a₁ (b.take p) ++ hirschbergLCS a₂ (b.drop p) <+ b := by
        have := List.Sublist.append hLb hRb
        rwa [List.take_append_drop] at this
      refine ⟨hsub_a, hsub_b, ?_⟩
      rw [List.length_append, hLlen, hRlen]
      apply Nat.le_antisymm
      · have := length_le_lcsLen a b _ hsub_a hsub_b
        rwa [List.length_append, hLlen, hRlen] at this
      · obtain ⟨c, hca, hcb, hclen⟩ := exists_lcs a b
        rw [← hclen]
        have hca' : c <+ a₁ ++ a₂ := by rwa [List.take_append_drop]
        obtain ⟨c₁, c₂, rfl, hc1, hc2⟩ := List.sublist_append_iff.1 hca'
        obtain ⟨r₁, r₂, hbr, hcr1, hcr2⟩ := List.append_sublist_iff.1 hcb
        have hq : r₁.length ≤ b.length := by rw [hbr]; simp
        have hbtake : b.take r₁.length = r₁ := by rw [hbr, List.take_left]
        have hbdrop : b.drop r₁.length = r₂ := by rw [hbr, List.drop_left]
        have h1 : c₁.length ≤ lcsLen a₁ (b.take r₁.length) := by
          rw [hbtake]
          exact length_le_lcsLen _ _ _ hc1 hcr1
        have h2 : c₂.length ≤ lcsLen a₂ (b.drop r₁.length) := by
          rw [hbdrop]
          exact length_le_lcsLen _ _ _ hc2 hcr2
        have hsq := hsumval r₁.length hq
        have hsp := hsumval p hple
        have hmaxq := hpmax r₁.length (by omega)
        rw [List.length_append]
        omega

/-- `hirschbergLCS` returns a common subsequence of maximal length. -/
theorem hirschbergLCS_spec (a b : List α) :
    hirschbergLCS a b <+ a ∧ hirschbergLCS a b <+ b ∧
      (hirschbergLCS a b).length = lcsLen a b :=
  hirschbergLCS_spec_aux a.length a b rfl

/-! ## Edit-script reconstruction -/

@[simp] theorem sourceTokens_nil : sourceTokens [] = [] := rfl

@[simp] theorem targetTokens_nil : targetTokens [] = [] := rfl

@[simp] theorem sourceTokens_cons_equal (t : String) (r : List DiffOp) :
    sourceTokens (DiffOp.equal t :: r) = t :: sourceTokens r := rfl

@[simp] theorem sourceTokens_cons_delete (t : String) (r : List DiffOp) :
    sourceTokens (DiffOp.delete t :: r) = t :: sourceTokens r := rfl

@[simp] theorem sourceTokens_cons_insert (t : String) (r : List DiffOp) :
    sourceTokens (DiffOp.insert t :: r) = sourceTokens r := rfl

@[simp] theorem targetTokens_cons_equal (t : String) (r : List DiffOp) :
    targetTokens (DiffOp.equal t :: r) = t :: targetTokens r := rfl

@[simp] theorem targetTokens_cons_delete (t : String) (r : List DiffOp) :
    targetTokens (DiffOp.delete t :: r) = targetTokens r := rfl

@[simp] theorem targetTokens_cons_insert (t : String) (r : List DiffOp) :
    targetTokens (DiffOp.insert t :: r) = t :: targetTokens r := rfl

theorem sourceTokens_append (u v : List DiffOp) :
    sourceTokens (u ++ v) = sourceTokens u ++ sourceTokens v := by
  simp [sourceTokens, List.filter_append]

theorem targetTokens_append (u v : List DiffOp) :
    targetTokens (u ++ v) = targetTokens u ++ targetTokens v := by
  simp [targetTokens, List.filter_append]

/-- When `lcs` is a common subsequence of `a` and `b`, the `while` loop of
`diff` terminates (no stuck state is reached) and its output replays to
exactly the two inputs. -/
theorem diffWalk_spec : ∀ (a b lcs : List String), lcs <+ a → lcs <+ b →
    ∃ r, diffWalk a b lcs = some r ∧ sourceTokens r = a ∧ targetTokens r = b := by
  intro a b lcs
  induction a, b, lcs using diffWalk.induct with
  | case1 lcs =>
    intro _ _
    exact ⟨[], by rw [diffWalk], rfl, rfl⟩
  | case2 x as ih =>
    intro _ _
    obtain ⟨r, h, hs, ht⟩ := ih (List.nil_sublist _) (List.nil_sublist _)
    exact ⟨DiffOp.delete x :: r, by rw [diffWalk, h]; rfl, by simp [hs], by simp [ht]⟩
  | case3 as l ls =>
    intro _ h2
    exact absurd (List.sublist_nil.1 h2) (by simp)
  | case4 x as l ls hxl ih =>
    intro _ h2
    exact absurd (List.sublist_nil.1 h2) (by simp)
  | case5 y bs ih =>
    intro _ _
    obtain ⟨r, h, hs, ht⟩ := ih (List.nil_sublist _) (List.nil_sublist _)
    exact ⟨DiffOp.insert y :: r, by rw [diffWalk, h]; rfl, by simp [hs], by simp [ht]⟩
  | case6 bs l ls =>
    intro h1 _
    exact absurd (List.sublist_nil.1 h1) (by simp)
  | case7 y bs l ls hyl ih =>
    intro h1 _
    exact absurd (List.sublist_nil.1 h1) (by simp)
  | case8 x as y bs ih =>
    intro _ _
    obtain ⟨r, h, hs, ht⟩ := ih (List.nil_sublist _) (List.nil_sublist _)
    exact ⟨DiffOp.delete x :: DiffOp.insert y :: r, by rw [diffWalk, h]; rfl,
      by simp [hs], by simp [ht]⟩
  | case9 as bs l ls ih =>
    intro h1 h2
    have hls1 : ls <+ as := by
      rcases List.sublist_cons_iff.1 h1 with h | ⟨r, heq, hr⟩
      · exact (List.sublist_cons_self l ls).trans h
      · injection heq with _ h'
        rwa [h']
    have hls2 : ls <+ bs := by
      rcases List.sublist_cons_iff.1 h2 with h | ⟨r, heq, hr⟩
      · exact (List.sublist_cons_self l ls).trans h
      · injection heq with _ h'
        rwa [h']
    obtain ⟨r, h, hs, ht⟩ := ih hls1 hls2
    refine ⟨DiffOp.equal l :: r, ?_, by simp [hs], by simp [ht]⟩
    rw [diffWalk, if_pos rfl, if_pos rfl, h]
    rfl
  | case10 as y bs l ls hyl ih =>
    intro h1 h2
    have hbs : l :: ls <+ bs := by
      rcases List.sublist_cons_iff.1 h2 with h | ⟨r, heq, hr⟩
      · exact h
      · exact absurd (by injection heq with h' _; exact h'.symm) hyl
    obtain ⟨r, h, hs, ht⟩ := ih h1 hbs
    refine ⟨DiffOp.insert y :: r, ?_, by simp [hs], by simp [ht]⟩
    rw [diffWalk, if_pos rfl, if_neg hyl, h]
    rfl
  | case11 x as bs l ls hxl ih =>
    intro h1 h2
    have has : l :: ls <+ as := by
      rcases List.sublist_cons_iff.1 h1 with h | ⟨r, heq, hr⟩
      · exact h
      · exact absurd (by injection heq with h' _; exact h'.symm) hxl
    obtain ⟨r, h, hs, ht⟩ := ih has h2
    refine ⟨DiffOp.delete x :: r, ?_, by simp [hs], by simp [ht]⟩
    rw [diffWalk, if_neg hxl, if_pos rfl, h]
    rfl
  | case12 x as y bs l ls hxl hyl ih =>
    intro h1 h2
    have has : l :: ls <+ as := by
      rcases List.sublist_cons_iff.1 h1 with h | ⟨r, heq, hr⟩
      · exact h
      · exact absurd (by injection heq with h' _; exact h'.symm) hxl
    have hbs : l :: ls <+ bs := by
      rcases List.sublist_cons_iff.1 h2 with h | ⟨r, heq, hr⟩
      · exact h
      · exact absurd (by injection heq with h' _; exact h'.symm) hyl
    obtain ⟨r, h, hs, ht⟩ := ih has hbs
    refine ⟨DiffOp.delete x :: DiffOp.insert y :: r, ?_, by simp [hs], by simp [ht]⟩
    rw [diffWalk, if_neg hxl, if_neg hyl, h]
    rfl

theorem join_append (u v : List String) :
    String.join (u ++ v) = String.join u ++ String.join v := by
  apply String.ext
  simp [string_join_data]

@[simp] theorem join_singleton (t : String) : String.join [t] = t := by
  apply String.ext
  simp [string_join_data]

@[simp] theorem join_nil : String.join ([] : List String) = "" := rfl

/-- Reconstruction: `diff` always succeeds and replaying `equal`+`delete`
texts yields the first input, `equal`+`insert` texts the second. -/
theorem diff_reconstruction (a b : List String) :
    ∃ ops, diff a b = some ops ∧
      String.join (sourceTokens ops) = String.join a ∧
      String.join (targetTokens ops) = String.join b := by
  set p := commonPrefix a b with hp
  set a1 := a.drop p with ha1
  set b1 := b.drop p with hb1
  set s := commonSuffix a1 b1 with hs
  set a2 := a1.take (a1.length - s) with ha2
  set b2 := b1.take (b1.length - s) with hb2
  set pre : List DiffOp :=
    (if 0 < p then [DiffOp.equal (String.join (a.take p))] else []) with hpre
  set suf : List DiffOp :=
    (if 0 < s then [DiffOp.equal (String.join (a1.drop (a1.length - s)))] else [])
    with hsuf
  have hdiff : diff a b =
      (diffWalk a2 b2 (hirschbergLCS a2 b2)).map (fun mid => pre ++ mid ++ suf) := by
    rw [diff]
  obtain ⟨hsuba, hsubb, -⟩ := hirschbergLCS_spec a2 b2
  obtain ⟨r, hwalk, hsrc, htgt⟩ := diffWalk_spec a2 b2 (hirschbergLCS a2 b2) hsuba hsubb
  refine ⟨pre ++ r ++ suf, by rw [hdiff, hwalk]; rfl, ?_, ?_⟩
  · rw [sourceTokens_append, sourceTokens_append, join_append, join_append, hsrc]
    have hpre_src : String.join (sourceTokens pre) = String.join (a.take p) := by
      rw [hpre]
      by_cases h0 : 0 < p
      · rw [if_pos h0]
        simp
      · rw [if_neg h0]
        have hz : p = 0 := by omega
        rw [hz]
        simp
    have hsuf_src : String.join (sourceTokens suf)
        = String.join (a1.drop (a1.length - s)) := by
      rw [hsuf]
      by_cases h0 : 0 < s
      · rw [if_pos h0]
        simp
      · rw [if_neg h0]
        have hz : s = 0 := by omega
        have hdz : a1.length - s = a1.length := by omega
        rw [hdz]
        simp
    rw [hpre_src, hsuf_src, ← join_append, ← join_append]
    have hsplit : a.take p ++ (a2 ++ a1.drop (a1.length - s)) = a := by
      rw [ha2, List.take_append_drop, ha1, List.take_append_drop]
    rw [← List.append_assoc] at hsplit
    rw [hsplit]
  · rw [targetTokens_append, targetTokens_append, join_append, join_append, htgt]
    have hpre_tgt : String.join (targetTokens pre) = String.join (b.take p) := by
      rw [hpre]
      by_cases h0 : 0 < p
      · rw [if_pos h0]
        have : a.take p = b.take p := commonPrefix_take a b
        simp [this]
      · rw [if_neg h0]
        have hz : p = 0 := by omega
        rw [hz]
        simp
    have hsuf_tgt : String.join (targetTokens suf)
        = String.join (b1.drop (b1.length - s)) := by
      rw [hsuf]
      by_cases h0 : 0 < s
      · rw [if_pos h0]
        have : a1.drop (a1.length - s) = b1.drop (b1.length - s) :=
          commonSuffix_drop a1 b1
        simp [this]
      · rw [if_neg h0]
        have hz : s = 0 := by omega
        have hdz : b1.length - s = b1.length := by omega
        rw [hdz]
        simp
    rw [hpre_tgt, hsuf_tgt, ← join_append, ← join_append]
    have hsplit : b.take p ++ (b2 ++ b1.drop (b1.length - s)) = b := by
      rw [hb2, List.take_append_drop, hb1, List.take_append_drop]
    rw [← List.append_assoc] at hsplit
    rw [hsplit]

/-! ## Identity and empty-input behaviour of `diff` -/

theorem commonPrefix_self : ∀ a : List α, commonPrefix a a = a.length := by
  intro a
  induction a with
  | nil => simp
  | cons x xs ih =>
    rw [commonPrefix, if_pos rfl, ih]
    rfl

theorem diffWalk_inserts : ∀ b : List String,
    diffWalk [] b [] = some (b.map DiffOp.insert) := by
  intro b
  induction b with
  | nil => rw [diffWalk]; rfl
  | cons y bs ih => rw [diffWalk, ih]; rfl

theorem diffWalk_deletes : ∀ a : List String,
    diffWalk a [] [] = some (a.map DiffOp.delete) := by
  intro a
  induction a with
  | nil => rw [diffWalk]; rfl
  | cons x as ih => rw [diffWalk, ih]; rfl

theorem hirschbergLCS_nil_right_aux : ∀ (n : Nat) (a : List α), a.length = n →
    hirschbergLCS a [] = [] := by
  intro n
  induction n using Nat.strong_induction_on with
  | _ n ih =>
    intro a hlen
    rcases a with _ | ⟨x, as⟩
    · rw [hirschbergLCS]
    rcases as with _ | ⟨y, rest⟩
    · rw [hirschbergLCS]
      simp
    · rw [hirschbergLCS_rec x y rest [] (by simp)]
      rw [List.take_nil, List.drop_nil]
      have hlen' : rest.length + 2 = n := by simpa using hlen
      rw [ih ((x :: y :: rest).take ((x :: y :: rest).length / 2)).length
          (by rw [List.length_take]; simp only [List.length_cons]; omega) _ rfl,
        ih ((x :: y :: rest).drop ((x :: y :: rest).length / 2)).length
          (by rw [List.length_drop]; simp only [List.length_cons]; omega) _ rfl]
      rfl

theorem hirschbergLCS_nil_right (a : List α) : hirschbergLCS a [] = [] :=
  hirschbergLCS_nil_right_aux a.length a rfl

/-- `diff a a` is a single `equal` (or empty for empty input). -/
theorem diff_self (a : List String) :
    diff a a = some (if 0 < a.length then [DiffOp.equal (String.join a)] else []) := by
  rw [diff, commonPrefix_self, List.drop_length]
  have hsuf : commonSuffix ([] : List String) ([] : List String) = 0 := by
    simp [commonSuffix]
  rw [hsuf]
  simp only [List.take_nil, List.take_length]
  rw [hirschbergLCS, diffWalk]
  simp

/-- `diff` of an empty first input: pure insertions. -/
theorem diff_nil_left (b : List String) :
    diff [] b = some (b.map DiffOp.insert) := by
  rw [diff]
  simp only [commonPrefix_nil_left, List.drop_zero, List.drop_nil, List.length_nil]
  have hsuf : commonSuffix ([] : List String) b = 0 := by
    simp [commonSuffix]
  rw [hsuf, List.take_nil]
  simp only [Nat.sub_zero, List.take_length]
  rw [hirschbergLCS, diffWalk_inserts b]
  simp

/-- `diff` of an empty second input: pure deletions. -/
theorem diff_nil_right (a : List String) :
    diff a [] = some (a.map DiffOp.delete) := by
  rw [diff]
  simp only [commonPrefix_nil_right, List.drop_zero, List.drop_nil, List.length_nil]
  have hsuf : commonSuffix a ([] : List String) = 0 := by
    simp [commonSuffix]
  rw [hsuf, List.take_nil]
  simp only [Nat.sub_zero, List.take_length]
  rw [hirschbergLCS_nil_right, diffWalk_deletes a]
  simp

/-! ## Claims -/

/-- C1: for every pair of token sequences `a` and `b`, `diff a b` succeeds
and concatenating the texts of its `equal`+`delete` operations yields the
concatenation of `a`, while the `equal`+`insert` texts yield the
concatenation of `b`. -/
theorem claim_C1 (a b : List String) :
    ∃ ops, diff a b = some ops ∧
      String.join (sourceTokens ops) = String.join a ∧
      String.join (targetTokens ops) = String.join b :=
  diff_reconstruction a b

/-- C2: `hirschbergLCS a b` is a subsequence of `a` and of `b`, and no
common subsequence of `a` and `b` is strictly longer. -/
theorem claim_C2 (a b : List String) :
    hirschbergLCS a b <+ a ∧ hirschbergLCS a b <+ b ∧
      ∀ c : List String, c <+ a → c <+ b →
        c.length ≤ (hirschbergLCS a b).length := by
  obtain ⟨h1, h2, h3⟩ := hirschbergLCS_spec a b
  refine ⟨h1, h2, ?_⟩
  intro c hca hcb
  rw [h3]
  exact length_le_lcsLen a b c hca hcb

theorem claim_C2_witness :
    (["a"] : List String) <+ ["a", "b"] ∧ (["a"] : List String) <+ ["c", "a"] ∧
      (["a"] : List String).length ≤ (hirschbergLCS ["a", "b"] ["c", "a"]).length :=
  ⟨by decide, by decide,
    (claim_C2 ["a", "b"] ["c", "a"]).2.2 ["a"] (by decide) (by decide)⟩

/-- C3 counterexample: on `",,"` the tokenizer returns the single
two-character token `",,"`, not one token per punctuation character as the
claim states. -/
theorem claim_C3_counterexample :
    splitIntoTokens ",," = [",,"] ∧ splitIntoTokens ",," ≠ [",", ","] := by
  rw [splitIntoTokens_eval]
  exact ⟨by decide, by decide⟩

/-- C3 (amended): the tokenizer splits its input into maximal runs of a
single character class — word characters, whitespace characters, or other
characters; other characters also form maximal runs (not one token per
character).  Every token is nonempty and single-class, adjacent tokens have
different classes, the tokens concatenate back to the input, tokenizing
`"foo bar, baz"` yields `["foo", " ", "bar", ",", " ", "baz"]`, and the
empty string yields the empty sequence. -/
theorem claim_C3_amended :
    (∀ s : String,
      (∀ t ∈ splitIntoTokens s, t ≠ "" ∧
        ∀ c ∈ t.data, ∀ d ∈ t.data, charClass c = charClass d) ∧
      List.Chain' (fun t u => ∀ c ∈ t.data, ∀ d ∈ u.data, charClass c ≠ charClass d)
        (splitIntoTokens s) ∧
      String.join (splitIntoTokens s) = s) ∧
    splitIntoTokens "foo bar, baz" = ["foo", " ", "bar", ",", " ", "baz"] ∧
    splitIntoTokens "" = [] := by
  refine ⟨?_, by rw [splitIntoTokens_eval]; decide, by rw [splitIntoTokens_eval]; decide⟩
  intro s
  refine ⟨?_, ?_, splitIntoTokens_join s⟩
  · intro t ht
    rw [splitIntoTokens] at ht
    obtain ⟨r, hr, rfl⟩ := List.mem_map.1 ht
    obtain ⟨c, cs, rfl, hall⟩ := tokenRuns_uniform s.data r hr
    constructor
    · intro hcontra
      have hdata : c :: cs = ("" : String).data := congrArg String.data hcontra
      simp at hdata
    · intro c' hc' d' hd'
      rw [hall c' hc', hall d' hd']
  · rw [splitIntoTokens, List.chain'_map]
    apply List.Chain'.imp ?_ (tokenRuns_chain s.data)
    intro r u h c hc d hd
    exact h c hc d hd

theorem claim_C3_amended_witness :
    (",," : String) ≠ "" ∧
      ∀ c ∈ (",," : String).data, ∀ d ∈ (",," : String).data,
        charClass c = charClass d :=
  (claim_C3_amended.1 ",,").1 ",," (by rw [splitIntoTokens_eval]; decide)

/-- C4: the candidate/equivalence-class method violates the claimed output
invariant: the internal `{i:0, j:0}` sentinel survives `mergeCandidates`
and is emitted as the out-of-range pair `(-1, -1)`, and when the greedy
chain resets (`prev` falls back to `0`) the emitted pairs are not strictly
increasing in the first coordinate — on `a = ["a","x","b"]`,
`b = ["b","a"]` the output is `[(-1,-1), (2,0), (0,1)]` with first
coordinates `-1, 2, 0`. -/
theorem claim_C4_bug :
    candidateLCS ["a"] ["a"] = [(-1, -1), (0, 0)] ∧
    candidateLCS ["a", "x", "b"] ["b", "a"] = [(-1, -1), (2, 0), (0, 1)] := by
  constructor <;>
    simp [candidateLCS, candidateLoop, occList, mergeCandidates,
      List.enum, List.enumFrom, List.find?]

/-- C5: the suffix window of `diff` is computed over the prefix-trimmed
remainders, so the prefix length plus the suffix length never exceeds
`min (len a) (len b)`. -/
theorem claim_C5 (a b : List String) :
    commonPrefix a b
      + commonSuffix (a.drop (commonPrefix a b)) (b.drop (commonPrefix a b))
      ≤ min a.length b.length := by
  have h1 := commonPrefix_le a b
  have h2 := commonSuffix_le (a.drop (commonPrefix a b)) (b.drop (commonPrefix a b))
  rw [List.length_drop, List.length_drop] at h2
  omega

/-- C6: `diff a a` yields a script of only `equal` operations whose
concatenated text is the concatenation of `a`. -/
theorem claim_C6 (a : List String) :
    ∃ ops, diff a a = some ops ∧ (∀ op ∈ ops, op.isEqual = true) ∧
      String.join (ops.map DiffOp.text) = String.join a := by
  refine ⟨_, diff_self a, ?_, ?_⟩
  · intro op hop
    by_cases h : 0 < a.length
    · rw [if_pos h] at hop
      rcases List.mem_singleton.1 hop with rfl
      rfl
    · rw [if_neg h] at hop
      simp at hop
  · by_cases h : 0 < a.length
    · rw [if_pos h]
      simp [DiffOp.text]
    · rw [if_neg h]
      have ha : a = [] := List.length_eq_zero.1 (by omega)
      subst ha
      simp

theorem claim_C6_witness :
    ∃ ops, diff ["a"] ["a"] = some ops ∧ (∀ op ∈ ops, op.isEqual = true) ∧
      String.join (ops.map DiffOp.text) = String.join ["a"] :=
  claim_C6 ["a"]

/-- C7: `diff` on empty inputs: two empty inputs give the empty script; an
empty first input gives one `insert` per token of the second input; an
empty second input gives one `delete` per token of the first input. -/
theorem claim_C7 (a b : List String) :
    diff ([] : List String) ([] : List String) = some [] ∧
    diff [] b = some (b.map DiffOp.insert) ∧
    diff a [] = some (a.map DiffOp.delete) := by
  refine ⟨?_, diff_nil_left b, diff_nil_right a⟩
  have h := diff_nil_left ([] : List String)
  simpa using h

/-- C8: `commonPrefix` computes the largest matching-head length and
`commonSuffix` the largest matching-tail length, with the spec's two
concrete examples. -/
theorem claim_C8 (a b : List String) :
    (a.take (commonPrefix a b) = b.take (commonPrefix a b) ∧
      commonPrefix a b ≤ min a.length b.length ∧
      ∀ n, n ≤ min a.length b.length → a.take n = b.take n →
        n ≤ commonPrefix a b) ∧
    (a.drop (a.length - commonSuffix a b) = b.drop (b.length - commonSuffix a b) ∧
      commonSuffix a b ≤ min a.length b.length ∧
      ∀ n, n ≤ min a.length b.length →
        a.drop (a.length - n) = b.drop (b.length - n) → n ≤ commonSuffix a b) ∧
    commonPrefix ["a", "b", "c"] ["a", "b", "d"] = 2 ∧
    commonSuffix ["x", "a", "b"] ["y", "a", "b"] = 2 :=
  ⟨⟨commonPrefix_take a b, commonPrefix_le a b,
      fun n hn ht => commonPrefix_greatest a b n hn ht⟩,
    ⟨commonSuffix_drop a b, commonSuffix_le a b,
      fun n hn ht => commonSuffix_greatest a b n hn ht⟩,
    by decide, by decide⟩

theorem claim_C8_witness :
    (1 : Nat) ≤ min (["a"] : List String).length (["a"] : List String).length ∧
      (["a"] : List String).take 1 = (["a"] : List String).take 1 ∧
      1 ≤ commonPrefix (["a"] : List String) ["a"] :=
  ⟨by decide, rfl, (claim_C8 ["a"] ["a"]).1.2.2 1 (by decide) rfl⟩

/-- C9: the tokenizer partitions its input: concatenating the tokens of
`splitIntoTokens s` yields exactly `s`. -/
theorem claim_C9 (s : String) : String.join (splitIntoTokens s) = s :=
  splitIntoTokens_join s

/-- C10: `hirschbergLCS` terminates on every input: each recursive call
receives a strictly shorter first array (`take`/`drop` at the midpoint of
an array of length at least 2), and in particular the recursive case with
an empty second array computes `[]`.  (Totality of the Lean definition,
well-founded on the length of the first argument, is itself the
termination argument.) -/
theorem claim_C10 (a : List String) (h : 2 ≤ a.length) :
    (a.take (a.length / 2)).length < a.length ∧
    (a.drop (a.length / 2)).length < a.length ∧
    hirschbergLCS a ([] : List String) = [] := by
  refine ⟨?_, ?_, hirschbergLCS_nil_right a⟩
  · rw [List.length_take]
    omega
  · rw [List.length_drop]
    omega

theorem claim_C10_witness :
    ((["x", "y"] : List String).take ((["x", "y"] : List String).length / 2)).length
        < (["x", "y"] : List String).length ∧
      ((["x", "y"] : List String).drop ((["x", "y"] : List String).length / 2)).length
        < (["x", "y"] : List String).length ∧
      hirschbergLCS ["x", "y"] ([] : List String) = [] :=
  claim_C10 ["x", "y"] (by decide)

end StringDiff
